import Mathlib

/-
Verification of the time-series unification and lag-correlation/volatility
engine of the geopolitical-risk-analytics repository.

The Python sources are shallowly embedded over exact rationals:
a daily series (one entry per row of the date-sorted frame) is a
`List (Option ℚ)`, with `none` standing for a missing value (NaN).
Pearson correlations involve a square root, so a reported correlation is
represented by its sufficient statistics `(sumDXDY, sumDX2, sumDY2)`
with `corr = sumDXDY / sqrt (sumDX2 * sumDY2)`; definedness of that
triple coincides exactly with the code reporting a number rather than NaN.
-/

/-- A daily series: one entry per row of the date-sorted frame; `none` is a
missing value (NaN in the source). -/
abbrev Series := List (Option ℚ)

/-- Embedding of `pandas.Series.shift(lag)`: position `i` holds the value from
position `i - lag`; the first `lag` positions become missing; the length of the
series is preserved. -/
def shiftList (lag : ℕ) (s : Series) : Series :=
  (List.replicate lag none ++ s).take s.length

/-- The pairs of values at positions where both series are non-missing:
`pandas.Series.corr` drops every position where either side is NaN, so only
these pairs contribute to a correlation. -/
def alignedPairs (s1 s2 : Series) : List (ℚ × ℚ) :=
  (s1.zip s2).filterMap fun p =>
    match p with
    | (some x, some y) => some (x, y)
    | _ => none

/-- Mean of the first components of a pair list. -/
def meanX (ps : List (ℚ × ℚ)) : ℚ := (ps.map Prod.fst).sum / ps.length

/-- Mean of the second components of a pair list. -/
def meanY (ps : List (ℚ × ℚ)) : ℚ := (ps.map Prod.snd).sum / ps.length

/-- Sum of squared deviations of the first components. -/
def sumDX2 (ps : List (ℚ × ℚ)) : ℚ :=
  (ps.map fun p => (p.1 - meanX ps) ^ 2).sum

/-- Sum of squared deviations of the second components. -/
def sumDY2 (ps : List (ℚ × ℚ)) : ℚ :=
  (ps.map fun p => (p.2 - meanY ps) ^ 2).sum

/-- Sum of products of deviations (the covariance numerator). -/
def sumDXDY (ps : List (ℚ × ℚ)) : ℚ :=
  (ps.map fun p => (p.1 - meanX ps) * (p.2 - meanY ps)).sum

/-- The Pearson correlation reported by `Series.corr`, represented by its
sufficient statistics: the reported number is
`sumDXDY / sqrt (sumDX2 * sumDY2)` (the normalisations by the pair count
cancel).  The result is `none` exactly when the code reports NaN: when either
sum of squared deviations is zero, which in particular covers every pair list
with fewer than two elements. -/
def corrStats (ps : List (ℚ × ℚ)) : Option (ℚ × ℚ × ℚ) :=
  if sumDX2 ps ≠ 0 ∧ sumDY2 ps ≠ 0 then
    some (sumDXDY ps, sumDX2 ps, sumDY2 ps)
  else none

/-- One row of `results/correlation_matrix.csv` as built by
`analyze_geopolitical_correlations`. -/
structure CorrRow where
  risk : String
  market : String
  lagDays : ℕ
  corr : Option (ℚ × ℚ × ℚ)
deriving DecidableEq

/-- The rows appended for one (risk column, market column) pair: one row at
lag 0 computed from the unshifted series, then one row for each lag in
`[7, 14, 28]` computed from the lag-shifted risk series against the unshifted
market series (src/correlation_analyzer.py, lines 145-161). -/
def pairRows (rn : String) (rs : Series) (mv : String × Series) : List CorrRow :=
  ⟨rn, mv.1, 0, corrStats (alignedPairs rs mv.2)⟩ ::
    ([7, 14, 28].map fun lag =>
      ⟨rn, mv.1, lag, corrStats (alignedPairs (shiftList lag rs) mv.2)⟩)

/-- Embedding of the row-building loop of `analyze_geopolitical_correlations`
(src/correlation_analyzer.py, lines 138-161): for every risk column present
and every market column present, the rows of `pairRows`. -/
def mkCorrTable (risks markets : List (String × Series)) : List CorrRow :=
  risks.flatMap fun rv => markets.flatMap fun mv => pairRows rv.1 rv.2 mv

/-- The explicitly lag-aligned pair list described by the specification: for
every position `i` of the market series with `lag ≤ i`, the risk value from
`lag` days earlier is paired with the market value observed at `i`; the market
series itself is never reindexed.  Positions where either side is missing are
dropped. -/
def manualPairs (lag : ℕ) (s1 s2 : Series) : List (ℚ × ℚ) :=
  (List.range s2.length).filterMap fun i =>
    if lag ≤ i then
      match s1.getD (i - lag) none, s2.getD i none with
      | some x, some y => some (x, y)
      | _, _ => none
    else none

/-- The trailing window of 7 observations ending at position `i`, used by
`calculate_volatility` (a `rolling(window=7)` window). -/
def windowAt (s : Series) (i : ℕ) : Series := (s.drop (i - 6)).take 7

/-- Extraction of the values of a fully observed window: `some` of the values
when no entry is missing, else `none` (pandas rolling aggregations with the
default `min_periods = window` yield NaN whenever the window holds a NaN). -/
def allSome (w : Series) : Option (List ℚ) :=
  if w.all Option.isSome then some (w.filterMap id) else none

/-- Embedding of `calculate_volatility(series, 7)`, i.e.
`series.rolling(window=7).std()`, squared so as to stay inside the rationals:
position `i` is missing for the first 6 positions and whenever the trailing
window holds a missing value; otherwise it carries the sample variance of the
trailing window computed through the sum-of-squares formula
`(sum x^2 - (sum x)^2 / 7) / 6` (with the default `ddof = 1`).  The reported
volatility is the square root of this value. -/
def rollingVar7 (s : Series) : Series :=
  (List.range s.length).map fun i =>
    if 6 ≤ i then
      match allSome (windowAt s i) with
      | some w => some (((w.map fun x => x ^ 2).sum - w.sum ^ 2 / 7) / 6)
      | none => none
    else none

/-- The sample variance as the specification words it: mean of the window,
then the sum of squared deviations divided by `n - 1`.  The sample standard
deviation of the window is its square root. -/
def sampleVar (w : List ℚ) : ℚ :=
  (w.map fun x => (x - w.sum / w.length) ^ 2).sum / ((w.length : ℚ) - 1)

/-- Embedding of `calculate_returns`, i.e. `series.pct_change() * 100` with no
filling of missing values before differencing (the pandas 3 default,
`fill_method=None`): the value at each position divided by the value one
position earlier, minus one, times 100; missing whenever either side is
missing. -/
def pctChange100 (s : Series) : Series :=
  (s.zip (shiftList 1 s)).map fun p =>
    match p with
    | (some c, some prev) => some ((c / prev - 1) * 100)
    | _ => none

/-- The last non-missing entry strictly before position `i`, with its
position. -/
def lastValidBefore (s : Series) (i : ℕ) : Option (ℕ × ℚ) :=
  ((List.range i).filterMap fun j => (s.getD j none).map fun v => (j, v)).getLast?

/-- The first non-missing entry strictly after position `i`, with its
position. -/
def nextValidAfter (s : Series) (i : ℕ) : Option (ℕ × ℚ) :=
  (((List.range (s.length - (i + 1))).map fun k => i + 1 + k).filterMap
    fun k => (s.getD k none).map fun v => (k, v)).head?

/-- Embedding of
`interpolate(method='linear', limit_direction='forward')` as applied to the
price-like columns in `analyze_timeseries` (src/correlation_analyzer.py,
line 67): a missing entry with a valid entry on both sides is filled by linear
interpolation on positions; a missing entry after the last valid entry is
filled forward with the last valid value; a missing entry before the first
valid entry stays missing (no backward fill). -/
def interpolateLF (s : Series) : Series :=
  (List.range s.length).map fun i =>
    match s.getD i none with
    | some v => some v
    | none =>
      match lastValidBefore s i with
      | none => none
      | some jv =>
        match nextValidAfter s i with
        | some kv =>
          some (jv.2 + (kv.2 - jv.2) * ((i : ℚ) - (jv.1 : ℚ)) / ((kv.1 : ℚ) - (jv.1 : ℚ)))
        | none => some jv.2

/-- Forward fill with an explicit carry: a missing entry is replaced by the
most recent non-missing value seen so far (the carry), a present entry
updates the carry. -/
def ffillAux (carry : Option ℚ) : Series → Series
  | [] => []
  | none :: t => carry :: ffillAux carry t
  | some v :: t => some v :: ffillAux (some v) t

/-- Embedding of `DataFrame.ffill` on one column. -/
def ffillList (s : Series) : Series := ffillAux none s

/-- Embedding of `DataFrame.bfill` on one column: forward fill of the
reversed column, reversed back. -/
def bfillList (s : Series) : Series := (ffillAux none s.reverse).reverse

/-- Embedding of the fill of `fill_file` (src/scripts/fill_price_series.py,
line 28): `ffill()` then `bfill()` on every non-date column. -/
def fillSeries (s : Series) : Series := bfillList (ffillList s)

/-- Decision of whether `tok` occurs as a contiguous run inside the character
list (an unanchored regular-expression match of a literal token). -/
def containsTok (tok : List Char) : List Char → Bool
  | [] => tok.isEmpty
  | c :: t => tok.isPrefixOf (c :: t) || containsTok tok t

/-- Embedding of `re.search(r"(\d{3,4})", t)` in `tier_from_title`
(src/scripts/normalize_hardware_prices.py, line 92): the leftmost run of at
least 3 digits yields the match, greedily taking 4 digits when available. -/
def firstToken : List Char → Option (List Char)
  | [] => none
  | c :: rest =>
    let run := (c :: rest).takeWhile Char.isDigit
    if 3 ≤ run.length then some (run.take 4) else firstToken rest

/-- Embedding of the first branch regex `8?0$|90$|80$|90` of
`tier_from_title`: an optional 8 then a final 0 (hence any token ending in 0
matches), or a final 90, or a final 80, or 90 anywhere. -/
def reHighMatch (m : List Char) : Bool :=
  (['0'].isSuffixOf m || ['8', '0'].isSuffixOf m) || ['9', '0'].isSuffixOf m ||
    ['8', '0'].isSuffixOf m || containsTok ['9', '0'] m

/-- Embedding of the second branch regex `6?0$|70$|60$|70` of
`tier_from_title`. -/
def reMidMatch (m : List Char) : Bool :=
  (['0'].isSuffixOf m || ['6', '0'].isSuffixOf m) || ['7', '0'].isSuffixOf m ||
    ['6', '0'].isSuffixOf m || containsTok ['7', '0'] m

/-- Embedding of the third branch regex `50$|50` of `tier_from_title`. -/
def reLowMatch (m : List Char) : Bool :=
  ['5', '0'].isSuffixOf m || containsTok ['5', '0'] m

/-- Embedding of `tier_from_title` (src/scripts/normalize_hardware_prices.py,
lines 88-103): extract the first 3-4 digit token of the title, then test the
three tier regexes in order; a title with no qualifying token classifies to no
tier (and its rows are later dropped before the per-date tier medians). -/
def tierFromTitle (t : String) : Option String :=
  match firstToken t.data with
  | none => none
  | some m =>
    if reHighMatch m then some "high"
    else if reMidMatch m then some "mid"
    else if reLowMatch m then some "low"
    else none

/-- The most recent at most 60 non-missing observations of a market series
(`ts_df[ts_df['btc_price_usd'].notna()].tail(60)`). -/
def recentObs (ts : Series) : List ℚ :=
  let xs := ts.filterMap id
  xs.drop (xs.length - 60)

/-- Embedding of the scenario formulas of `forecast_btc_from_risk`
(src/predictive_analyzer.py, lines 88-100), as functions of the current risk
level `r`, the current market value `c` and the recent volatility `v` in
value units: `predicted_change_from_risk = r * 0.15`, then
base, bull, bear and stress cases in that order. -/
def forecastScenarios (r c v : ℚ) : ℚ × ℚ × ℚ × ℚ :=
  (c * (1 + r * 0.15),
   c * (1 + r * 0.15 + v / c),
   c * (1 + r * 0.15 - v / c),
   c * (1 + r * 0.15 * 2))

/-- The forecast computed from a market series: the current value is the last
of the most recent 60 non-missing observations; no forecast is produced when
no observation exists. -/
def forecastFromSeries (r v : ℚ) (ts : Series) : Option (ℚ × ℚ × ℚ × ℚ) :=
  (recentObs ts).getLast?.map fun c => forecastScenarios r c v

/-- Severity levels of the early-warning signals. -/
inductive Severity where
  | warning
  | alert
  | info
  | critical
deriving DecidableEq

/-- An early-warning signal: a severity and the indicator text. -/
structure Signal where
  severity : Severity
  indicator : String
deriving DecidableEq

/-- The trailing 7-observation moving average at position `i` of a grouped
daily series (`rolling(7).mean()`): defined from position 6 onward. -/
def ma7At (xs : List ℚ) (i : ℕ) : Option ℚ :=
  if 6 ≤ i ∧ i < xs.length then some (((xs.drop (i - 6)).take 7).sum / 7)
  else none

/-- The trend compared by `calculate_early_warning_signals`: the last value of
the 7-day moving average minus its value seven rows earlier
(`ma.iloc[-1] - ma.iloc[-7]`); missing when either moving average is not yet
defined. -/
def trendOf (xs : List ℚ) : Option ℚ :=
  (ma7At xs (xs.length - 1)).bind fun a =>
    (ma7At xs (xs.length - 7)).map fun b => a - b

/-- Embedding of `calculate_early_warning_signals`
(src/predictive_analyzer.py, lines 182-242).  `byDate` is the grouped daily
frame over the most recent 30 days, one entry per date holding the mean
geopolitical risk and the mean conflicts value; `latest` holds one entry per
country at the most recent date with its risk value.  Trend signals are only
evaluated when more than 7 dates are present; a missing trend (NaN) passes no
threshold.  Independently of trend, every country whose latest risk value
strictly exceeds 1.0 yields a CRITICAL signal. -/
def earlyWarningSignals (byDate : List (ℚ × ℚ))
    (latest : List (String × ℚ)) : List Signal :=
  (if 7 < byDate.length then
    (match trendOf (byDate.map Prod.fst) with
     | some t =>
       if t > 0.3 then [⟨Severity.warning, "Geopolitical Risk Rising"⟩] else []
     | none => []) ++
    (match trendOf (byDate.map Prod.snd) with
     | some t =>
       if t > 0.5 then [⟨Severity.alert, "Conflict Escalation"⟩] else []
     | none => []) ++
    (match trendOf (byDate.map Prod.fst) with
     | some t =>
       if t < -0.3 then [⟨Severity.info, "Risk De-escalation"⟩] else []
     | none => [])
  else []) ++
  latest.filterMap fun cr =>
    if cr.2 > 1 then some ⟨Severity.critical, cr.1 ++ " - Extreme Risk"⟩
    else none

theorem shiftList_length (lag : ℕ) (s : Series) :
    (shiftList lag s).length = s.length := by
  simp [shiftList]

theorem shiftList_getD (lag : ℕ) (s : Series) (i : ℕ) (hi : i < s.length) :
    (shiftList lag s).getD i none =
      if i < lag then none else s.getD (i - lag) none := by
  unfold shiftList
  rw [List.getD_eq_getElem?_getD, List.getElem?_take, if_pos hi, List.getElem?_append]
  simp only [List.length_replicate]
  by_cases h : i < lag
  · simp [h, List.getElem?_replicate]
  · simp [h, List.getD_eq_getElem?_getD]

theorem zip_eq_range_map (s1 s2 : Series) (h : s1.length = s2.length) :
    s1.zip s2 =
      (List.range s2.length).map fun i => (s1.getD i none, s2.getD i none) := by
  induction s1 generalizing s2 with
  | nil => cases s2 with
    | nil => simp
    | cons b t => simp at h
  | cons a t ih =>
    cases s2 with
    | nil => simp at h
    | cons b u =>
      simp only [List.length_cons] at h
      have h' : t.length = u.length := Nat.succ_injective h
      simp only [List.zip_cons_cons, List.length_cons, List.range_succ_eq_map,
        List.map_cons, List.map_map]
      refine congrArg (_ :: ·) ?_
      rw [ih u h']
      rfl

/-- Claim C3: for every lag in the sweep, the correlation reported by the
engine (computed by shifting the risk series and correlating it with the
unshifted market series, dropping positions where either side is missing)
equals the Pearson correlation computed directly on the explicitly
lag-aligned pairs, in which the risk value from `lag` days earlier is paired
with the market value of the same position and the market series is never
shifted.  The equality is stated both on the aligned pair lists and on the
sufficient statistics determining the Pearson coefficient. -/
theorem engine_lag_equals_manual_alignment (lag : ℕ) (s1 s2 : Series)
    (h : s1.length = s2.length) :
    alignedPairs (shiftList lag s1) s2 = manualPairs lag s1 s2 ∧
      corrStats (alignedPairs (shiftList lag s1) s2) =
        corrStats (manualPairs lag s1 s2) := by
  have key : alignedPairs (shiftList lag s1) s2 = manualPairs lag s1 s2 := by
    unfold alignedPairs manualPairs
    rw [zip_eq_range_map _ _ (by rw [shiftList_length, h]), List.filterMap_map]
    apply List.filterMap_congr
    intro i hi
    have hi' : i < s2.length := List.mem_range.mp hi
    have hgd := shiftList_getD lag s1 i (by rw [h]; exact hi')
    simp only [Function.comp_apply]
    rw [hgd]
    by_cases hl : i < lag
    · simp only [if_pos hl, if_neg (Nat.not_le.mpr hl)]
    · simp only [if_neg hl, if_pos (Nat.le_of_not_lt hl)]
      cases List.getD s1 (i - lag) none <;> cases List.getD s2 i none <;> rfl
  exact ⟨key, congrArg corrStats key⟩

/-- Witness for C3 at a concrete input. -/
theorem engine_lag_equals_manual_alignment_witness :
    alignedPairs (shiftList 7 [some 1, none, some 3, some 4])
        [some 5, some 6, none, some 8] =
      manualPairs 7 [some 1, none, some 3, some 4]
        [some 5, some 6, none, some 8] ∧
      corrStats (alignedPairs (shiftList 7 [some 1, none, some 3, some 4])
          [some 5, some 6, none, some 8]) =
        corrStats (manualPairs 7 [some 1, none, some 3, some 4]
          [some 5, some 6, none, some 8]) :=
  engine_lag_equals_manual_alignment 7
    [some 1, none, some 3, some 4] [some 5, some 6, none, some 8] (by decide)

theorem map_sum_eq_range (f : ℚ × ℚ → ℚ) (ps : List (ℚ × ℚ)) :
    (ps.map f).sum = ∑ i ∈ Finset.range ps.length, f (ps.getD i (0, 0)) := by
  induction ps with
  | nil => simp
  | cons p t ih =>
    rw [List.map_cons, List.sum_cons, ih, List.length_cons, Finset.sum_range_succ']
    simp [List.getD_cons_succ, List.getD_cons_zero, add_comm]

theorem sumDXDY_sq_le (ps : List (ℚ × ℚ)) :
    sumDXDY ps ^ 2 ≤ sumDX2 ps * sumDY2 ps := by
  unfold sumDXDY sumDX2 sumDY2
  rw [map_sum_eq_range, map_sum_eq_range, map_sum_eq_range]
  exact Finset.sum_mul_sq_le_sq_mul_sq (Finset.range ps.length)
    (fun i => (ps.getD i (0, 0)).1 - meanX ps)
    (fun i => (ps.getD i (0, 0)).2 - meanY ps)

theorem sumDX2_nonneg (ps : List (ℚ × ℚ)) : 0 ≤ sumDX2 ps := by
  apply List.sum_nonneg
  intro x hx
  obtain ⟨p, _, rfl⟩ := List.mem_map.mp hx
  positivity

theorem sumDY2_nonneg (ps : List (ℚ × ℚ)) : 0 ≤ sumDY2 ps := by
  apply List.sum_nonneg
  intro x hx
  obtain ⟨p, _, rfl⟩ := List.mem_map.mp hx
  positivity

theorem sumDX2_of_short (ps : List (ℚ × ℚ)) (h : ps.length < 2) :
    sumDX2 ps = 0 := by
  match ps with
  | [] => simp [sumDX2]
  | [p] => simp [sumDX2, meanX]
  | p :: q :: t => simp only [List.length_cons] at h; omega

theorem corrStats_none_of_short (ps : List (ℚ × ℚ)) (h : ps.length < 2) :
    corrStats ps = none := by
  unfold corrStats
  rw [if_neg]
  intro hc
  exact hc.1 (sumDX2_of_short ps h)

theorem corrStats_some_bounds (ps : List (ℚ × ℚ)) (t : ℚ × ℚ × ℚ)
    (h : corrStats ps = some t) :
    0 ≤ t.1 ^ 2 / (t.2.1 * t.2.2) ∧ t.1 ^ 2 / (t.2.1 * t.2.2) ≤ 1 := by
  unfold corrStats at h
  by_cases hc : sumDX2 ps ≠ 0 ∧ sumDY2 ps ≠ 0
  · rw [if_pos hc, Option.some_inj] at h
    subst h
    have hx : 0 < sumDX2 ps := lt_of_le_of_ne (sumDX2_nonneg ps) (Ne.symm hc.1)
    have hy : 0 < sumDY2 ps := lt_of_le_of_ne (sumDY2_nonneg ps) (Ne.symm hc.2)
    constructor
    · positivity
    · rw [div_le_one (by positivity)]
      simpa using sumDXDY_sq_le ps
  · rw [if_neg hc] at h
    exact absurd h (by simp)

theorem shiftList_zero (s : Series) : shiftList 0 s = s := by
  simp [shiftList]

/-- Claim C4: for every (pair, lag) combination processed by
`analyze_geopolitical_correlations`, only positions where both the shifted
risk series and the market series are non-missing contribute (the row is
computed from `alignedPairs`, which keeps exactly those positions); a row is
always present in the output table, never omitted; when fewer than 2
overlapping positions exist its correlation is undefined (`none`, never `0`);
and when the correlation is defined its square
`sumDXDY ^ 2 / (sumDX2 * sumDY2)` lies in `[0, 1]`, which is exactly the
statement that the Pearson coefficient `sumDXDY / sqrt (sumDX2 * sumDY2)`
lies in `[-1, 1]`. -/
theorem corr_table_overlap_nan_bounded (risks markets : List (String × Series))
    (rn mn : String) (rs ms : Series) (lag : ℕ)
    (hr : (rn, rs) ∈ risks) (hm : (mn, ms) ∈ markets)
    (hl : lag ∈ [0, 7, 14, 28]) :
    ∃ row ∈ mkCorrTable risks markets,
      row.risk = rn ∧ row.market = mn ∧ row.lagDays = lag ∧
        row.corr = corrStats (alignedPairs (shiftList lag rs) ms) ∧
        ((alignedPairs (shiftList lag rs) ms).length < 2 → row.corr = none) ∧
        ∀ t, row.corr = some t →
          0 ≤ t.1 ^ 2 / (t.2.1 * t.2.2) ∧ t.1 ^ 2 / (t.2.1 * t.2.2) ≤ 1 := by
  have hrowmem : ∀ row ∈ pairRows rn rs (mn, ms),
      row ∈ mkCorrTable risks markets := by
    intro row hrow
    exact List.mem_flatMap.mpr ⟨(rn, rs), hr, List.mem_flatMap.mpr ⟨(mn, ms), hm, hrow⟩⟩
  have mk : ∀ L : ℕ,
      (⟨rn, mn, L, corrStats (alignedPairs (shiftList L rs) ms)⟩ : CorrRow) ∈
        mkCorrTable risks markets →
      ∃ row ∈ mkCorrTable risks markets,
        row.risk = rn ∧ row.market = mn ∧ row.lagDays = L ∧
          row.corr = corrStats (alignedPairs (shiftList L rs) ms) ∧
          ((alignedPairs (shiftList L rs) ms).length < 2 → row.corr = none) ∧
          ∀ t, row.corr = some t →
            0 ≤ t.1 ^ 2 / (t.2.1 * t.2.2) ∧ t.1 ^ 2 / (t.2.1 * t.2.2) ≤ 1 := by
    intro L hmem
    exact ⟨_, hmem, rfl, rfl, rfl, rfl,
      fun hshort => corrStats_none_of_short _ hshort,
      fun t ht => corrStats_some_bounds _ t ht⟩
  simp only [List.mem_cons, List.mem_singleton, List.not_mem_nil, or_false] at hl
  rcases hl with rfl | rfl | rfl | rfl
  · apply mk
    apply hrowmem
    rw [shiftList_zero]
    exact List.mem_cons_self _ _
  · exact mk 7 (hrowmem _ (List.mem_cons_of_mem _ (List.mem_map.mpr ⟨7, by simp, rfl⟩)))
  · exact mk 14 (hrowmem _ (List.mem_cons_of_mem _ (List.mem_map.mpr ⟨14, by simp, rfl⟩)))
  · exact mk 28 (hrowmem _ (List.mem_cons_of_mem _ (List.mem_map.mpr ⟨28, by simp, rfl⟩)))

/-- Witness for C4 at a concrete input. -/
theorem corr_table_overlap_nan_bounded_witness :
    ∃ row ∈ mkCorrTable [("geopolitical_risk", [some 1, some 2, some 3])]
        [("btc_price_usd", [some 2, some 1, some 5])],
      row.risk = "geopolitical_risk" ∧ row.market = "btc_price_usd" ∧
        row.lagDays = 7 ∧
        row.corr = corrStats (alignedPairs
          (shiftList 7 [some 1, some 2, some 3]) [some 2, some 1, some 5]) ∧
        ((alignedPairs (shiftList 7 [some 1, some 2, some 3])
            [some 2, some 1, some 5]).length < 2 → row.corr = none) ∧
        ∀ t, row.corr = some t →
          0 ≤ t.1 ^ 2 / (t.2.1 * t.2.2) ∧ t.1 ^ 2 / (t.2.1 * t.2.2) ≤ 1 :=
  corr_table_overlap_nan_bounded
    [("geopolitical_risk", [some 1, some 2, some 3])]
    [("btc_price_usd", [some 2, some 1, some 5])]
    "geopolitical_risk" "btc_price_usd"
    [some 1, some 2, some 3] [some 2, some 1, some 5] 7
    (by decide) (by decide) (by decide)

/-- Counterexample to claim C1: for a processed (risk, market) pair the
produced correlation table holds rows only for the lags 0, 7, 14 and 28; it
contains no row with lag 21, so it does not contain exactly one row per lag
value in the set 0, 7, 14, 21, 28. -/
theorem corr_table_lag21_missing_counterexample :
    (∃ row ∈ mkCorrTable [("geopolitical_risk", [some 1, some 2])]
        [("btc_price_usd", [some 3, some 4])],
       row.risk = "geopolitical_risk" ∧ row.market = "btc_price_usd") ∧
    ¬ ∃ row ∈ mkCorrTable [("geopolitical_risk", [some 1, some 2])]
        [("btc_price_usd", [some 3, some 4])], row.lagDays = 21 := by
  decide

theorem mem_mkCorrTable_risk {risks markets : List (String × Series)}
    {row : CorrRow} (h : row ∈ mkCorrTable risks markets) :
    row.risk ∈ risks.map Prod.fst := by
  obtain ⟨rv, hrv, h2⟩ := List.mem_flatMap.mp h
  obtain ⟨mv, _, h3⟩ := List.mem_flatMap.mp h2
  have : row.risk = rv.1 := by
    rcases List.mem_cons.mp h3 with rfl | h4
    · rfl
    · obtain ⟨lag, _, rfl⟩ := List.mem_map.mp h4
      rfl
  exact this ▸ List.mem_map.mpr ⟨rv, hrv, rfl⟩

theorem pairRows_market {rn : String} {rs : Series} {mv : String × Series}
    {row : CorrRow} (h : row ∈ pairRows rn rs mv) : row.market = mv.1 := by
  rcases List.mem_cons.mp h with rfl | h4
  · rfl
  · obtain ⟨lag, _, rfl⟩ := List.mem_map.mp h4
    rfl

theorem filter_inner_block (rn mn : String) (rs ms : Series)
    (markets : List (String × Series))
    (hnd : (markets.map Prod.fst).Nodup) (hm : (mn, ms) ∈ markets) :
    (((markets.flatMap fun mv => pairRows rn rs mv).filter
        fun row => row.risk == rn && row.market == mn).map
      fun row => row.lagDays) = [0, 7, 14, 28] := by
  induction markets with
  | nil => simp at hm
  | cons mv rest ih =>
    rw [List.flatMap_cons, List.filter_append, List.map_append]
    simp only [List.map_cons, List.nodup_cons] at hnd
    rcases List.mem_cons.mp hm with heq | hrest
    · have hmv : mv.1 = mn := by rw [← heq]
      have hkeep : (pairRows rn rs mv).filter
          (fun row => row.risk == rn && row.market == mn) = pairRows rn rs mv := by
        apply List.filter_eq_self.mpr
        intro row hrow
        have h1 : row.risk = rn := by
          rcases List.mem_cons.mp hrow with rfl | h4
          · rfl
          · obtain ⟨lag, _, rfl⟩ := List.mem_map.mp h4
            rfl
        have h2 : row.market = mn := (pairRows_market hrow).trans hmv
        simp [h1, h2]
      have hdrop : (rest.flatMap fun mv => pairRows rn rs mv).filter
          (fun row => row.risk == rn && row.market == mn) = [] := by
        apply List.filter_eq_nil_iff.mpr
        intro row hrow
        obtain ⟨mv', hmv', h3⟩ := List.mem_flatMap.mp hrow
        have h4 : row.market = mv'.1 := pairRows_market h3
        have h5 : mv'.1 ≠ mn := by
          intro heq'
          exact hnd.1 (hmv ▸ heq' ▸ List.mem_map.mpr ⟨mv', hmv', rfl⟩)
        simp [h4, h5]
      rw [hkeep, hdrop]
      simp [pairRows]
    · have hne : mv.1 ≠ mn := by
        intro heq'
        exact hnd.1 (heq' ▸ List.mem_map.mpr ⟨(mn, ms), hrest, rfl⟩)
      have hdrop : (pairRows rn rs mv).filter
          (fun row => row.risk == rn && row.market == mn) = [] := by
        apply List.filter_eq_nil_iff.mpr
        intro row hrow
        have h4 : row.market = mv.1 := pairRows_market hrow
        simp [h4, hne]
      rw [hdrop, ih hnd.2 hrest]
      rfl

/-- Claim C1, amended: for every valid (risk_indicator, market_variable) pair
processed by `analyze_geopolitical_correlations` (column names being distinct),
the produced correlation table contains exactly one row per lag value in the
list [0, 7, 14, 28] and in that order - no duplicate triple and no further
rows; the lag value 21 is not produced (the source sweeps `[7, 14, 28]` after
the lag-0 row, not the full weekly range up to 28). -/
theorem corr_table_one_row_per_lag (risks markets : List (String × Series))
    (rn mn : String) (rs ms : Series)
    (hndr : (risks.map Prod.fst).Nodup) (hndm : (markets.map Prod.fst).Nodup)
    (hr : (rn, rs) ∈ risks) (hm : (mn, ms) ∈ markets) :
    (((mkCorrTable risks markets).filter
        fun row => row.risk == rn && row.market == mn).map
      fun row => row.lagDays) = [0, 7, 14, 28] := by
  induction risks with
  | nil => simp at hr
  | cons rv rest ih =>
    unfold mkCorrTable
    rw [List.flatMap_cons, List.filter_append, List.map_append]
    simp only [List.map_cons, List.nodup_cons] at hndr
    rcases List.mem_cons.mp hr with heq | hrest
    · have hrv : rv.1 = rn := by rw [← heq]
      have hrs : rv.2 = rs := by rw [← heq]
      have hdrop : (rest.flatMap fun rv' =>
          markets.flatMap fun mv => pairRows rv'.1 rv'.2 mv).filter
          (fun row => row.risk == rn && row.market == mn) = [] := by
        apply List.filter_eq_nil_iff.mpr
        intro row hrow
        have h4 : row.risk ∈ rest.map Prod.fst :=
          @mem_mkCorrTable_risk rest markets row hrow
        have h5 : row.risk ≠ rn := by
          intro heq'
          exact hndr.1 (hrv ▸ heq' ▸ h4)
        simp [h5]
      rw [hdrop, hrv, hrs, filter_inner_block rn mn rs ms markets hndm hm]
      simp
    · have hne : rv.1 ≠ rn := by
        intro heq'
        exact hndr.1 (heq' ▸ List.mem_map.mpr ⟨(rn, rs), hrest, rfl⟩)
      have hdrop : (markets.flatMap fun mv => pairRows rv.1 rv.2 mv).filter
          (fun row => row.risk == rn && row.market == mn) = [] := by
        apply List.filter_eq_nil_iff.mpr
        intro row hrow
        obtain ⟨mv, _, h3⟩ := List.mem_flatMap.mp hrow
        have h4 : row.risk = rv.1 := by
          rcases List.mem_cons.mp h3 with rfl | h5
          · rfl
          · obtain ⟨lag, _, rfl⟩ := List.mem_map.mp h5
            rfl
        simp [h4, hne]
      rw [hdrop]
      have := ih hndr.2 hrest
      unfold mkCorrTable at this
      rw [this]
      rfl

/-- Witness for the amended claim C1 at a concrete input. -/
theorem corr_table_one_row_per_lag_witness :
    (((mkCorrTable
          [("geopolitical_risk", [some 1, some 2]), ("conflicts", [some 3, none])]
          [("btc_price_usd", [some 3, some 4])]).filter
        fun row => row.risk == "conflicts" && row.market == "btc_price_usd").map
      fun row => row.lagDays) = [0, 7, 14, 28] :=
  corr_table_one_row_per_lag
    [("geopolitical_risk", [some 1, some 2]), ("conflicts", [some 3, none])]
    [("btc_price_usd", [some 3, some 4])]
    "conflicts" "btc_price_usd" [some 3, none] [some 3, some 4]
    (by decide) (by decide) (by decide) (by decide)

theorem filterMap_id_length (l : Series) (h : l.all Option.isSome) :
    (l.filterMap id).length = l.length := by
  induction l with
  | nil => simp
  | cons a t ih =>
    simp only [List.all_cons, Bool.and_eq_true] at h
    cases a with
    | none => simp at h
    | some v => simp [List.filterMap_cons, ih h.2]

theorem allSome_length (w : Series) (l : List ℚ) (h : allSome w = some l) :
    l.length = w.length := by
  unfold allSome at h
  by_cases hc : w.all Option.isSome
  · rw [if_pos hc, Option.some_inj] at h
    rw [← h]
    exact filterMap_id_length w hc
  · rw [if_neg hc] at h
    exact absurd h (by simp)

theorem windowAt_length (s : Series) (i : ℕ) (h6 : 6 ≤ i) (hi : i < s.length) :
    (windowAt s i).length = 7 := by
  simp only [windowAt, List.length_take, List.length_drop]
  omega

theorem sum_sq_dev (w : List ℚ) (m : ℚ) :
    (w.map fun x => (x - m) ^ 2).sum =
      (w.map fun x => x ^ 2).sum - 2 * m * w.sum + w.length * m ^ 2 := by
  induction w with
  | nil => simp
  | cons a t ih =>
    simp only [List.map_cons, List.sum_cons, ih, List.length_cons]
    push_cast
    ring

theorem sampleVar_of_len7 (w : List ℚ) (hw : w.length = 7) :
    ((w.map fun x => x ^ 2).sum - w.sum ^ 2 / 7) / 6 = sampleVar w := by
  have h7 : (w.length : ℚ) = 7 := by rw [hw]; norm_num
  unfold sampleVar
  rw [sum_sq_dev, h7]
  field_simp
  ring

/-- Claim C6: for any input series, the rolling 7-observation volatility of
`calculate_volatility` is undefined (missing, not zero) at the first 6
positions, and from position 7 onward (index 6 and later) it equals the
sample standard deviation of the trailing 7-observation window that includes
the current point - stated on squares, the rolling value equals the sample
variance `sampleVar` of the fully observed window (undefined when the window
itself holds a missing observation). -/
theorem rolling_volatility_first6_then_sample_std (s : Series) (i : ℕ)
    (hi : i < s.length) :
    (i < 6 → (rollingVar7 s).getD i none = none) ∧
    (6 ≤ i → (rollingVar7 s).getD i none =
      (allSome (windowAt s i)).map sampleVar) := by
  have hget : (rollingVar7 s).getD i none =
      (if 6 ≤ i then
        match allSome (windowAt s i) with
        | some w => some (((w.map fun x => x ^ 2).sum - w.sum ^ 2 / 7) / 6)
        | none => none
      else none) := by
    unfold rollingVar7
    rw [List.getD_eq_getElem?_getD, List.getElem?_map, List.getElem?_range hi]
    rfl
  constructor
  · intro hlt
    rw [hget, if_neg (by omega)]
  · intro hge
    rw [hget, if_pos hge]
    cases hcase : allSome (windowAt s i) with
    | none => rfl
    | some w =>
      have hwlen : w.length = 7 := by
        rw [allSome_length (windowAt s i) w hcase]
        exact windowAt_length s i hge hi
      exact congrArg some (sampleVar_of_len7 w hwlen)

/-- Witness for C6 at a concrete input. -/
theorem rolling_volatility_first6_then_sample_std_witness :
    (7 < 6 → (rollingVar7 [some 1, some 1, some 1, some 1, some 1, some 1,
      some 1, some 3]).getD 7 none = none) ∧
    (6 ≤ 7 → (rollingVar7 [some 1, some 1, some 1, some 1, some 1, some 1,
      some 1, some 3]).getD 7 none =
      (allSome (windowAt [some 1, some 1, some 1, some 1, some 1, some 1,
        some 1, some 3] 7)).map sampleVar) :=
  rolling_volatility_first6_then_sample_std
    [some 1, some 1, some 1, some 1, some 1, some 1, some 1, some 3] 7
    (by decide)

theorem pctChange100_getD (s : Series) (i : ℕ) (hi : i < s.length) :
    (pctChange100 s).getD i none =
      match s.getD i none, (shiftList 1 s).getD i none with
      | some c, some prev => some ((c / prev - 1) * 100)
      | _, _ => none := by
  unfold pctChange100
  rw [zip_eq_range_map s (shiftList 1 s) (shiftList_length 1 s).symm,
    shiftList_length, List.map_map, List.getD_eq_getElem?_getD,
    List.getElem?_map, List.getElem?_range hi]
  simp only [Option.map_some', Option.getD_some, Function.comp_apply]
  cases s.getD i none <;> cases (shiftList 1 s).getD i none <;> rfl

/-- Claim C7: for any input series, the returns column of `calculate_returns`
equals `(v[t] / v[t-1] - 1) * 100` between consecutive available
observations, and is undefined at position 0 (in particular at the first
valid observation, whose predecessor entry is missing or absent) and at any
position whose predecessor entry is missing. -/
theorem returns_pct_change_consecutive (s : Series) (i : ℕ)
    (hi : i < s.length) :
    ((i = 0 ∨ s.getD (i - 1) none = none ∨ s.getD i none = none) →
      (pctChange100 s).getD i none = none) ∧
    (∀ c p : ℚ, 0 < i → s.getD i none = some c → s.getD (i - 1) none = some p →
      (pctChange100 s).getD i none = some ((c / p - 1) * 100)) := by
  have hshift := shiftList_getD 1 s i hi
  constructor
  · intro hcase
    rw [pctChange100_getD s i hi]
    rcases hcase with rfl | hpred | hcur
    · rw [hshift, if_pos (by omega)]
      cases s.getD 0 none <;> rfl
    · by_cases h0 : i < 1
      · rw [hshift, if_pos h0]
        cases s.getD i none <;> rfl
      · rw [hshift, if_neg h0, hpred]
        cases s.getD i none <;> rfl
    · rw [hcur]
  · intro c p h0 hcur hpred
    rw [pctChange100_getD s i hi, hcur, hshift, if_neg (by omega), hpred]

/-- Witness for C7 at a concrete input. -/
theorem returns_pct_change_consecutive_witness :
    ((1 = 0 ∨ ([some 2, some 3, none, some 4] : Series).getD 0 none = none ∨
        ([some 2, some 3, none, some 4] : Series).getD 1 none = none) →
      (pctChange100 [some 2, some 3, none, some 4]).getD 1 none = none) ∧
    (∀ c p : ℚ, 0 < 1 →
      ([some 2, some 3, none, some 4] : Series).getD 1 none = some c →
      ([some 2, some 3, none, some 4] : Series).getD 0 none = some p →
      (pctChange100 [some 2, some 3, none, some 4]).getD 1 none =
        some ((c / p - 1) * 100)) :=
  returns_pct_change_consecutive [some 2, some 3, none, some 4] 1 (by decide)

/-- Claim C8: given the latest mean risk level `r`, the current market value
`c` (the last of the most recent 60 non-missing observations) and the recent
volatility `v` of those observations in value units, the forecast generator
returns exactly `base = c * (1 + r * 0.15)`, `bull = base + v`,
`bear = base - v` and `stress = c * (1 + r * 2 * 0.15)`, with the fixed
sensitivity coefficient 0.15 (for a nonzero current value, since the code
forms `v / c`). -/
theorem forecast_scenarios_formulas (r v : ℚ) (ts : Series) (c : ℚ)
    (hc : (recentObs ts).getLast? = some c) (hc0 : c ≠ 0) :
    forecastFromSeries r v ts =
      some (c * (1 + r * 0.15), c * (1 + r * 0.15) + v,
        c * (1 + r * 0.15) - v, c * (1 + r * 2 * 0.15)) := by
  unfold forecastFromSeries
  rw [hc]
  unfold forecastScenarios
  simp only [Option.map_some']
  refine congrArg some ?_
  have h1 : c * (1 + r * 0.15 + v / c) = c * (1 + r * 0.15) + v := by
    field_simp
    ring
  have h2 : c * (1 + r * 0.15 - v / c) = c * (1 + r * 0.15) - v := by
    field_simp
    ring
  have h3 : c * (1 + r * 0.15 * 2) = c * (1 + r * 2 * 0.15) := by ring
  rw [h1, h2, h3]

/-- Witness for C8 at a concrete input. -/
theorem forecast_scenarios_formulas_witness :
    forecastFromSeries 1 10 [some 100] =
      some (100 * (1 + 1 * 0.15), 100 * (1 + 1 * 0.15) + 10,
        100 * (1 + 1 * 0.15) - 10, 100 * (1 + 1 * 2 * 0.15)) :=
  forecast_scenarios_formulas 1 10 [some 100] 100 (by decide) (by decide)

/-- Claim C2, behaviour of the code at the decisive inputs: the tier
classifier maps a title through its first 3-4 digit token, and the first
regex branch `8?0$|90$|80$|90` already matches every token ending in the
digit 0 (the 8 is optional), so the title "RTX 3080 16GB" classifies to
"high" as claimed, but "RTX 3060" also classifies to "high", not to "mid" as
the specification requires; a title without a qualifying token classifies to
no tier. -/
theorem tier_from_title_rtx3060_high :
    tierFromTitle "RTX 3080 16GB" = some "high" ∧
    tierFromTitle "RTX 3060" = some "high" ∧
    ¬ tierFromTitle "RTX 3060" = some "mid" ∧
    tierFromTitle "no numeric token" = none := by
  decide

theorem filterMap_append_getLast {α β : Type} (f : α → Option β) (l1 l2 : List α)
    (x : α) (y : β) (h2 : ∀ a ∈ l2, f a = none) (hx : f x = some y) :
    (List.filterMap f (l1 ++ x :: l2)).getLast? = some y := by
  rw [List.filterMap_append, List.filterMap_cons, hx,
    List.filterMap_eq_nil_iff.mpr h2]
  exact List.getLast?_concat _

theorem filterMap_append_head {α β : Type} (f : α → Option β) (l1 l2 : List α)
    (x : α) (y : β) (h1 : ∀ a ∈ l1, f a = none) (hx : f x = some y) :
    (List.filterMap f (l1 ++ x :: l2)).head? = some y := by
  rw [List.filterMap_append, List.filterMap_eq_nil_iff.mpr h1, List.nil_append,
    List.filterMap_cons, hx, List.head?_cons]

theorem range_decomp (m k : ℕ) (hk : k < m) :
    List.range m =
      List.range k ++ k :: ((List.range (m - (k + 1))).map fun t => (k + 1) + t) := by
  have h1 : m = (k + 1) + (m - (k + 1)) := by omega
  calc List.range m = List.range ((k + 1) + (m - (k + 1))) := by rw [← h1]
    _ = List.range (k + 1) ++ (List.range (m - (k + 1))).map (fun t => (k + 1) + t) :=
        List.range_add _ _
    _ = (List.range k ++ [k]) ++ (List.range (m - (k + 1))).map (fun t => (k + 1) + t) := by
        rw [List.range_succ]
    _ = List.range k ++ k :: ((List.range (m - (k + 1))).map fun t => (k + 1) + t) := by
        rw [List.append_assoc]
        rfl

theorem lastValidBefore_eq_none (s : Series) (i : ℕ)
    (h : ∀ j, j < i → s.getD j none = none) : lastValidBefore s i = none := by
  unfold lastValidBefore
  have hnil : (List.range i).filterMap
      (fun j => (s.getD j none).map fun v => (j, v)) = [] := by
    apply List.filterMap_eq_nil_iff.mpr
    intro j hj
    rw [h j (List.mem_range.mp hj)]
    rfl
  rw [hnil]
  rfl

theorem lastValidBefore_eq_some (s : Series) (i j : ℕ) (vj : ℚ)
    (hj : j < i) (hv : s.getD j none = some vj)
    (hafter : ∀ m, j < m → m < i → s.getD m none = none) :
    lastValidBefore s i = some (j, vj) := by
  unfold lastValidBefore
  rw [range_decomp i j hj]
  apply filterMap_append_getLast
  · intro a ha
    obtain ⟨x, hx, rfl⟩ := List.mem_map.mp ha
    have hx' : x < i - (j + 1) := List.mem_range.mp hx
    rw [hafter (j + 1 + x) (by omega) (by omega)]
    rfl
  · rw [hv]
    rfl

theorem lastValidBefore_isSome (s : Series) (i j : ℕ) (vj : ℚ)
    (hj : j < i) (hv : s.getD j none = some vj) :
    ∃ p, lastValidBefore s i = some p := by
  unfold lastValidBefore
  have hmem : (j, vj) ∈ (List.range i).filterMap
      (fun j => (s.getD j none).map fun v => (j, v)) :=
    List.mem_filterMap.mpr ⟨j, List.mem_range.mpr hj, by rw [hv]; rfl⟩
  have hne := List.ne_nil_of_mem hmem
  exact Option.isSome_iff_exists.mp (List.getLast?_isSome.mpr hne)

theorem nextValidAfter_eq_none (s : Series) (i : ℕ)
    (h : ∀ m, i < m → m < s.length → s.getD m none = none) :
    nextValidAfter s i = none := by
  unfold nextValidAfter
  have hnil : (((List.range (s.length - (i + 1))).map fun k => i + 1 + k).filterMap
      fun k => (s.getD k none).map fun v => (k, v)) = [] := by
    apply List.filterMap_eq_nil_iff.mpr
    intro a ha
    obtain ⟨x, hx, rfl⟩ := List.mem_map.mp ha
    have hx' : x < s.length - (i + 1) := List.mem_range.mp hx
    rw [h (i + 1 + x) (by omega) (by omega)]
    rfl
  rw [hnil]
  rfl

theorem nextValidAfter_eq_some (s : Series) (i k : ℕ) (vk : ℚ)
    (hik : i < k) (hk : k < s.length) (hv : s.getD k none = some vk)
    (hbet : ∀ m, i < m → m < k → s.getD m none = none) :
    nextValidAfter s i = some (k, vk) := by
  unfold nextValidAfter
  have hklt : k - (i + 1) < s.length - (i + 1) := by omega
  rw [range_decomp (s.length - (i + 1)) (k - (i + 1)) hklt, List.map_append,
    List.map_cons]
  apply filterMap_append_head
  · intro a ha
    obtain ⟨x, hx, rfl⟩ := List.mem_map.mp ha
    have hx' : x < k - (i + 1) := List.mem_range.mp hx
    rw [hbet (i + 1 + x) (by omega) (by omega)]
    rfl
  · have hik' : i + 1 + (k - (i + 1)) = k := by omega
    rw [hik', hv]
    rfl

theorem interpolateLF_getD (s : Series) (i : ℕ) (hi : i < s.length) :
    (interpolateLF s).getD i none =
      match s.getD i none with
      | some v => some v
      | none =>
        match lastValidBefore s i with
        | none => none
        | some jv =>
          match nextValidAfter s i with
          | some kv =>
            some (jv.2 + (kv.2 - jv.2) * ((i : ℚ) - (jv.1 : ℚ)) /
              ((kv.1 : ℚ) - (jv.1 : ℚ)))
          | none => some jv.2 := by
  unfold interpolateLF
  rw [List.getD_eq_getElem?_getD, List.getElem?_map, List.getElem?_range hi]
  rfl

/-- Counterexample to claim C5: the interpolation applied before the
volatility computation uses `limit_direction='forward'`, which does fill
missing values after the last valid observation (holding the last valid
value), contradicting the claim that no filling happens beyond the last valid
index: on the series [1, 2, missing] the trailing position is filled with 2
instead of staying missing. -/
theorem interpolation_fills_trailing_counterexample :
    (interpolateLF [some 1, some 2, none]).getD 2 none = some 2 ∧
    ¬ (interpolateLF [some 1, some 2, none]).getD 2 none = none := by
  decide

/-- Claim C5, amended: the pre-volatility linear interpolation
(`limit_direction='forward'`) fills interior missing runs by linear
interpolation between the surrounding valid observations AND fills missing
values after the last valid observation by carrying that last valid value
forward; it does not fill missing values before the first valid observation.
(The original claim wrongly asserted that nothing beyond the last valid index
is filled.) -/
theorem interpolation_forward_amended (s : Series) (i : ℕ) (hi : i < s.length) :
    ((∀ j, j ≤ i → s.getD j none = none) →
      (interpolateLF s).getD i none = none) ∧
    ((∃ j, j ≤ i ∧ s.getD j none ≠ none) →
      (interpolateLF s).getD i none ≠ none) ∧
    (∀ j vj, j < i → s.getD j none = some vj →
      (∀ m, j < m → m < s.length → s.getD m none = none) →
      (interpolateLF s).getD i none = some vj) ∧
    (∀ j k vj vk, j < i → i < k → k < s.length →
      s.getD i none = none → s.getD j none = some vj → s.getD k none = some vk →
      (∀ m, j < m → m < i → s.getD m none = none) →
      (∀ m, i < m → m < k → s.getD m none = none) →
      (interpolateLF s).getD i none =
        some (vj + (vk - vj) * ((i : ℚ) - (j : ℚ)) / ((k : ℚ) - (j : ℚ)))) := by
  refine ⟨?_, ?_, ?_, ?_⟩
  · intro h
    rw [interpolateLF_getD s i hi, h i (Nat.le_refl i),
      lastValidBefore_eq_none s i fun j hj => h j (Nat.le_of_lt hj)]
  · intro ⟨j, hji, hjv⟩
    cases hv : s.getD i none with
    | some v =>
      rw [interpolateLF_getD s i hi, hv]
      simp
    | none =>
      have hj : j < i := by
        rcases Nat.lt_or_ge j i with h | h
        · exact h
        · exact absurd hv (by rw [show i = j by omega] at hv; exact absurd hv hjv)
      obtain ⟨vj, hvj⟩ := Option.ne_none_iff_exists'.mp hjv
      obtain ⟨p, hp⟩ := lastValidBefore_isSome s i j vj hj hvj
      rw [interpolateLF_getD s i hi, hv, hp]
      cases nextValidAfter s i <;> simp
  · intro j vj hj hvj hafter
    have hvi : s.getD i none = none := hafter i hj hi
    rw [interpolateLF_getD s i hi, hvi,
      lastValidBefore_eq_some s i j vj hj hvj
        (fun m hm1 hm2 => hafter m hm1 (by omega)),
      nextValidAfter_eq_none s i (fun m hm1 hm2 => hafter m (by omega) hm2)]
  · intro j k vj vk hj hk hkn hvi hvj hvk hb1 hb2
    rw [interpolateLF_getD s i hi, hvi,
      lastValidBefore_eq_some s i j vj hj hvj hb1,
      nextValidAfter_eq_some s i k vk hk hkn hvk hb2]

/-- Witness for the amended claim C5 at a concrete input. -/
theorem interpolation_forward_amended_witness :
    ((∀ j, j ≤ 2 → ([none, some 1, none, none, some 4, none] : Series).getD
        j none = none) →
      (interpolateLF [none, some 1, none, none, some 4, none]).getD 2 none =
        none) ∧
    ((∃ j, j ≤ 2 ∧ ([none, some 1, none, none, some 4, none] : Series).getD
        j none ≠ none) →
      (interpolateLF [none, some 1, none, none, some 4, none]).getD 2 none ≠
        none) ∧
    (∀ j vj, j < 2 →
      ([none, some 1, none, none, some 4, none] : Series).getD j none =
        some vj →
      (∀ m, j < m → m < ([none, some 1, none, none, some 4, none] :
          Series).length →
        ([none, some 1, none, none, some 4, none] : Series).getD m none =
          none) →
      (interpolateLF [none, some 1, none, none, some 4, none]).getD 2 none =
        some vj) ∧
    (∀ j k vj vk, j < 2 → 2 < k →
      k < ([none, some 1, none, none, some 4, none] : Series).length →
      ([none, some 1, none, none, some 4, none] : Series).getD 2 none = none →
      ([none, some 1, none, none, some 4, none] : Series).getD j none =
        some vj →
      ([none, some 1, none, none, some 4, none] : Series).getD k none =
        some vk →
      (∀ m, j < m → m < 2 →
        ([none, some 1, none, none, some 4, none] : Series).getD m none =
          none) →
      (∀ m, 2 < m → m < k →
        ([none, some 1, none, none, some 4, none] : Series).getD m none =
          none) →
      (interpolateLF [none, some 1, none, none, some 4, none]).getD 2 none =
        some (vj + (vk - vj) * ((2 : ℚ) - (j : ℚ)) / ((k : ℚ) - (j : ℚ)))) :=
  interpolation_forward_amended [none, some 1, none, none, some 4, none] 2
    (by decide)

theorem ffillAux_all_some (c : Option ℚ) (hc : c.isSome) (s : Series) :
    ∀ y ∈ ffillAux c s, y.isSome := by
  induction s generalizing c with
  | nil => intro y hy; simp [ffillAux] at hy
  | cons a t ih =>
    intro y hy
    cases a with
    | none =>
      rcases List.mem_cons.mp hy with rfl | hmem
      · exact hc
      · exact ih c hc y hmem
    | some v =>
      rcases List.mem_cons.mp hy with rfl | hmem
      · rfl
      · exact ih (some v) rfl y hmem

theorem ffillAux_replicate_none (c : Option ℚ) (m : ℕ) (t : Series) :
    ffillAux c (List.replicate m none ++ t) =
      List.replicate m c ++ ffillAux c t := by
  induction m with
  | zero => rfl
  | succ n ih => simp [List.replicate_succ, ffillAux, ih]

theorem ffillAux_allsome_append_replicate (L : Series) (u : ℚ) (c : Option ℚ)
    (hL : ∀ y ∈ L, y.isSome) (hlast : L.getLast? = some (some u)) (m : ℕ) :
    ffillAux c (L ++ List.replicate m none) =
      L ++ List.replicate m (some u) := by
  induction L generalizing c with
  | nil => simp at hlast
  | cons a t ih =>
    have ha : a.isSome := hL a (List.mem_cons_self a t)
    obtain ⟨w, rfl⟩ := Option.isSome_iff_exists.mp ha
    cases t with
    | nil =>
      have hw : w = u := by
        simp [List.getLast?] at hlast
        exact hlast
      subst hw
      show some w :: ffillAux (some w) (List.replicate m none) = _
      rw [show (List.replicate m none : Series) =
            List.replicate m none ++ [] by simp,
        ffillAux_replicate_none]
      simp [ffillAux]
    | cons b t' =>
      have hlast' : (b :: t').getLast? = some (some u) := by
        rwa [List.getLast?_cons_cons] at hlast
      show some w :: ffillAux (some w) ((b :: t') ++ List.replicate m none) = _
      rw [ih (some w) (fun y hy => hL y (List.mem_cons_of_mem _ hy)) hlast']
      rfl

theorem exists_first_some (s : Series) (h : ∃ x ∈ s, x ≠ none) :
    ∃ m v t, s = List.replicate m none ++ some v :: t := by
  induction s with
  | nil => simp at h
  | cons a t ih =>
    cases a with
    | some v => exact ⟨0, v, t, rfl⟩
    | none =>
      obtain ⟨x, hx, hxne⟩ := h
      have hxt : x ∈ t := by
        rcases List.mem_cons.mp hx with rfl | hmem
        · exact absurd rfl hxne
        · exact hmem
      obtain ⟨m, v, t', ht⟩ := ih ⟨x, hxt, hxne⟩
      exact ⟨m + 1, v, t', by rw [List.replicate_succ, List.cons_append, ht]⟩

theorem fillSeries_decomp (m : ℕ) (v : ℚ) (t : Series) :
    fillSeries (List.replicate m none ++ some v :: t) =
      List.replicate m (some v) ++ some v :: ffillAux (some v) t := by
  unfold fillSeries ffillList bfillList
  rw [ffillAux_replicate_none]
  have hstep : ffillAux none (some v :: t) = some v :: ffillAux (some v) t := rfl
  rw [hstep, List.reverse_append, List.reverse_replicate]
  rw [ffillAux_allsome_append_replicate
    ((some v :: ffillAux (some v) t).reverse) v none ?hall ?hlast m]
  · rw [List.reverse_append, List.reverse_replicate, List.reverse_reverse]
  case hall =>
    intro y hy
    rw [List.mem_reverse] at hy
    rcases List.mem_cons.mp hy with rfl | hmem
    · rfl
    · exact ffillAux_all_some (some v) rfl t y hmem
  case hlast =>
    rw [List.getLast?_reverse]
    rfl

/-- Claim C10: for every column holding at least one non-missing value, the
`fill_file` output (`ffill()` then `bfill()`) holds no missing value anywhere;
the column decomposes into leading missing values followed by the first
observation, the leading part is back-filled with that first observation,
and every later position carries the forward-filled series (interior gaps and
trailing missing values filled from the previous observation). -/
theorem fill_file_no_missing (s : Series) (h : ∃ x ∈ s, x ≠ none) :
    (∀ y ∈ fillSeries s, y ≠ none) ∧
    (∃ m v t, s = List.replicate m none ++ some v :: t ∧
      fillSeries s =
        List.replicate m (some v) ++ some v :: ffillAux (some v) t) := by
  obtain ⟨m, v, t, rfl⟩ := exists_first_some s h
  refine ⟨?_, m, v, t, rfl, fillSeries_decomp m v t⟩
  intro y hy
  rw [fillSeries_decomp m v t] at hy
  rcases List.mem_append.mp hy with h1 | h2
  · rw [List.eq_of_mem_replicate h1]
    simp
  · rcases List.mem_cons.mp h2 with rfl | hmem
    · simp
    · exact Option.isSome_iff_ne_none.mp
        (ffillAux_all_some (some v) rfl t y hmem)

/-- Witness for C10 at a concrete input. -/
theorem fill_file_no_missing_witness :
    (∀ y ∈ fillSeries [none, none, some 5, none, some 7, none], y ≠ none) ∧
    (∃ m v t, ([none, none, some 5, none, some 7, none] : Series) =
        List.replicate m none ++ some v :: t ∧
      fillSeries [none, none, some 5, none, some 7, none] =
        List.replicate m (some v) ++ some v :: ffillAux (some v) t) :=
  fill_file_no_missing [none, none, some 5, none, some 7, none]
    (by decide)

theorem trendOf_some_length (xs : List ℚ) (t : ℚ) (h : trendOf xs = some t) :
    13 ≤ xs.length := by
  unfold trendOf at h
  cases h1 : ma7At xs (xs.length - 1) with
  | none => rw [h1] at h; simp at h
  | some a =>
    rw [h1] at h
    cases h2 : ma7At xs (xs.length - 7) with
    | none => rw [h2] at h; simp at h
    | some b =>
      unfold ma7At at h2
      by_cases hc : 6 ≤ xs.length - 7 ∧ xs.length - 7 < xs.length
      · omega
      · rw [if_neg hc] at h2
        exact absurd h2 (by simp)

theorem string_append_right_cancel {a b s : String} (h : a ++ s = b ++ s) :
    a = b := by
  have hd : a.data ++ s.data = b.data ++ s.data := by
    rw [← String.data_append, ← String.data_append, h]
  exact String.ext (List.append_cancel_right hd)

theorem mem_gt_gate (xs : List ℚ) (c : ℚ) (sig0 sig : Signal) :
    (sig ∈ (match trendOf xs with
      | some t => if t > c then [sig0] else []
      | none => ([] : List Signal))) ↔
      (sig = sig0 ∧ ∃ t, trendOf xs = some t ∧ t > c) := by
  cases htr : trendOf xs with
  | none => simp
  | some t =>
    by_cases hp : t > c
    · simp [if_pos hp, hp]
    · simp [if_neg hp, hp]

theorem mem_lt_gate (xs : List ℚ) (c : ℚ) (sig0 sig : Signal) :
    (sig ∈ (match trendOf xs with
      | some t => if t < c then [sig0] else []
      | none => ([] : List Signal))) ↔
      (sig = sig0 ∧ ∃ t, trendOf xs = some t ∧ t < c) := by
  cases htr : trendOf xs with
  | none => simp
  | some t =>
    by_cases hp : t < c
    · simp [if_pos hp, hp]
    · simp [if_neg hp, hp]

theorem mem_critical_signals (latest : List (String × ℚ)) (sig : Signal) :
    (sig ∈ latest.filterMap fun cr =>
        if cr.2 > 1 then some ⟨Severity.critical, cr.1 ++ " - Extreme Risk"⟩
        else none) ↔
      ∃ cr ∈ latest, cr.2 > 1 ∧
        sig = ⟨Severity.critical, cr.1 ++ " - Extreme Risk"⟩ := by
  rw [List.mem_filterMap]
  constructor
  · rintro ⟨cr, hmem, hf⟩
    by_cases h : cr.2 > 1
    · rw [if_pos h, Option.some_inj] at hf
      exact ⟨cr, hmem, h, hf.symm⟩
    · rw [if_neg h] at hf
      exact absurd hf (by simp)
  · rintro ⟨cr, hmem, h, rfl⟩
    exact ⟨cr, hmem, by rw [if_pos h]⟩

/-- Claim C9: the early-warning detector, working on the grouped daily means
of the last 30 days, compares the most recent 7-day moving average with its
value seven rows earlier (`iloc[-1] - iloc[-7]`) and emits a WARNING signal
exactly when that risk-trend increase exists and exceeds +0.3, an ALERT
exactly when the conflict-trend increase exists and exceeds +0.5, an INFO
de-escalation signal exactly when the risk trend exists and falls below -0.3,
and, independently of any trend, a CRITICAL signal for a country exactly when
its latest risk value strictly exceeds 1.0 (the trend conditions imply that
more than 7 grouped dates are present, so the source guard is subsumed). -/
theorem early_warning_signal_rules (byDate : List (ℚ × ℚ))
    (latest : List (String × ℚ)) (hnd : (latest.map Prod.fst).Nodup) :
    ((⟨Severity.warning, "Geopolitical Risk Rising"⟩ : Signal) ∈
        earlyWarningSignals byDate latest ↔
      ∃ t, trendOf (byDate.map Prod.fst) = some t ∧ t > 0.3) ∧
    ((⟨Severity.alert, "Conflict Escalation"⟩ : Signal) ∈
        earlyWarningSignals byDate latest ↔
      ∃ t, trendOf (byDate.map Prod.snd) = some t ∧ t > 0.5) ∧
    ((⟨Severity.info, "Risk De-escalation"⟩ : Signal) ∈
        earlyWarningSignals byDate latest ↔
      ∃ t, trendOf (byDate.map Prod.fst) = some t ∧ t < -0.3) ∧
    (∀ c r, (c, r) ∈ latest →
      ((⟨Severity.critical, c ++ " - Extreme Risk"⟩ : Signal) ∈
          earlyWarningSignals byDate latest ↔ r > 1)) := by
  unfold earlyWarningSignals
  refine ⟨⟨?_, ?_⟩, ⟨?_, ?_⟩, ⟨?_, ?_⟩, ?_⟩
  · intro hmem
    rcases List.mem_append.mp hmem with hL | hR
    · by_cases hn : 7 < byDate.length
      · rw [if_pos hn] at hL
        rcases List.mem_append.mp hL with hAB | hC
        · rcases List.mem_append.mp hAB with hA | hB
          · exact ((mem_gt_gate _ _ _ _).mp hA).2
          · have := ((mem_gt_gate _ _ _ _).mp hB).1
            simp [Signal.mk.injEq] at this
        · have := ((mem_lt_gate _ _ _ _).mp hC).1
          simp [Signal.mk.injEq] at this
      · rw [if_neg hn] at hL
        simp at hL
    · rw [mem_critical_signals] at hR
      obtain ⟨cr, _, _, heq⟩ := hR
      have := congrArg Signal.severity heq
      simp at this
  · rintro ⟨t, htr, ht⟩
    have h13 := trendOf_some_length _ _ htr
    rw [List.length_map] at h13
    refine List.mem_append_left _ ?_
    rw [if_pos (by omega)]
    refine List.mem_append_left _ (List.mem_append_left _ ?_)
    exact (mem_gt_gate _ _ _ _).mpr ⟨rfl, t, htr, ht⟩
  · intro hmem
    rcases List.mem_append.mp hmem with hL | hR
    · by_cases hn : 7 < byDate.length
      · rw [if_pos hn] at hL
        rcases List.mem_append.mp hL with hAB | hC
        · rcases List.mem_append.mp hAB with hA | hB
          · have := ((mem_gt_gate _ _ _ _).mp hA).1
            simp [Signal.mk.injEq] at this
          · exact ((mem_gt_gate _ _ _ _).mp hB).2
        · have := ((mem_lt_gate _ _ _ _).mp hC).1
          simp [Signal.mk.injEq] at this
      · rw [if_neg hn] at hL
        simp at hL
    · rw [mem_critical_signals] at hR
      obtain ⟨cr, _, _, heq⟩ := hR
      have := congrArg Signal.severity heq
      simp at this
  · rintro ⟨t, htr, ht⟩
    have h13 := trendOf_some_length _ _ htr
    rw [List.length_map] at h13
    refine List.mem_append_left _ ?_
    rw [if_pos (by omega)]
    refine List.mem_append_left _ (List.mem_append_right _ ?_)
    exact (mem_gt_gate _ _ _ _).mpr ⟨rfl, t, htr, ht⟩
  · intro hmem
    rcases List.mem_append.mp hmem with hL | hR
    · by_cases hn : 7 < byDate.length
      · rw [if_pos hn] at hL
        rcases List.mem_append.mp hL with hAB | hC
        · rcases List.mem_append.mp hAB with hA | hB
          · have := ((mem_gt_gate _ _ _ _).mp hA).1
            simp [Signal.mk.injEq] at this
          · have := ((mem_gt_gate _ _ _ _).mp hB).1
            simp [Signal.mk.injEq] at this
        · exact ((mem_lt_gate _ _ _ _).mp hC).2
      · rw [if_neg hn] at hL
        simp at hL
    · rw [mem_critical_signals] at hR
      obtain ⟨cr, _, _, heq⟩ := hR
      have := congrArg Signal.severity heq
      simp at this
  · rintro ⟨t, htr, ht⟩
    have h13 := trendOf_some_length _ _ htr
    rw [List.length_map] at h13
    refine List.mem_append_left _ ?_
    rw [if_pos (by omega)]
    refine List.mem_append_right _ ?_
    exact (mem_lt_gate _ _ _ _).mpr ⟨rfl, t, htr, ht⟩
  · intro c r hcr
    constructor
    · intro hmem
      rcases List.mem_append.mp hmem with hL | hR
      · by_cases hn : 7 < byDate.length
        · rw [if_pos hn] at hL
          rcases List.mem_append.mp hL with hAB | hC
          · rcases List.mem_append.mp hAB with hA | hB
            · have := ((mem_gt_gate _ _ _ _).mp hA).1
              simp [Signal.mk.injEq] at this
            · have := ((mem_gt_gate _ _ _ _).mp hB).1
              simp [Signal.mk.injEq] at this
          · have := ((mem_lt_gate _ _ _ _).mp hC).1
            simp [Signal.mk.injEq] at this
        · rw [if_neg hn] at hL
          simp at hL
      · rw [mem_critical_signals] at hR
        obtain ⟨cr', hmem', hgt, heq⟩ := hR
        have hind := congrArg Signal.indicator heq
        simp only at hind
        have hc1 : c = cr'.1 := string_append_right_cancel hind
        have hcr' : cr' = (c, r) := by
          apply List.inj_on_of_nodup_map hnd hmem' hcr
          exact hc1.symm
        rw [hcr'] at hgt
        exact hgt
    · intro hr
      refine List.mem_append_right _ ?_
      rw [mem_critical_signals]
      exact ⟨(c, r), hcr, hr, rfl⟩

/-- Witness for C9 at a concrete input: the CRITICAL signal fires for a
country at risk 1.2 against the 1.0 threshold and does not fire at 0.95, and
a risk-trend increase of 1 over the moving average emits a WARNING. -/
theorem early_warning_signal_rules_witness :
    ((⟨Severity.warning, "Geopolitical Risk Rising"⟩ : Signal) ∈
        earlyWarningSignals
          [(1, 1), (1, 1), (1, 1), (1, 1), (1, 1), (1, 1), (1, 1), (1, 1),
            (1, 1), (1, 1), (1, 1), (1, 1), (8, 1)]
          [("Ukraine", 1.2), ("Chile", 0.95)] ↔
      ∃ t, trendOf ([(1, 1), (1, 1), (1, 1), (1, 1), (1, 1), (1, 1), (1, 1),
          (1, 1), (1, 1), (1, 1), (1, 1), (1, 1), (8, 1)].map Prod.fst) =
        some t ∧ t > 0.3) ∧
    ((⟨Severity.alert, "Conflict Escalation"⟩ : Signal) ∈
        earlyWarningSignals
          [(1, 1), (1, 1), (1, 1), (1, 1), (1, 1), (1, 1), (1, 1), (1, 1),
            (1, 1), (1, 1), (1, 1), (1, 1), (8, 1)]
          [("Ukraine", 1.2), ("Chile", 0.95)] ↔
      ∃ t, trendOf ([(1, 1), (1, 1), (1, 1), (1, 1), (1, 1), (1, 1), (1, 1),
          (1, 1), (1, 1), (1, 1), (1, 1), (1, 1), (8, 1)].map Prod.snd) =
        some t ∧ t > 0.5) ∧
    ((⟨Severity.info, "Risk De-escalation"⟩ : Signal) ∈
        earlyWarningSignals
          [(1, 1), (1, 1), (1, 1), (1, 1), (1, 1), (1, 1), (1, 1), (1, 1),
            (1, 1), (1, 1), (1, 1), (1, 1), (8, 1)]
          [("Ukraine", 1.2), ("Chile", 0.95)] ↔
      ∃ t, trendOf ([(1, 1), (1, 1), (1, 1), (1, 1), (1, 1), (1, 1), (1, 1),
          (1, 1), (1, 1), (1, 1), (1, 1), (1, 1), (8, 1)].map Prod.fst) =
        some t ∧ t < -0.3) ∧
    (∀ c r, (c, r) ∈ [("Ukraine", (1.2 : ℚ)), ("Chile", 0.95)] →
      ((⟨Severity.critical, c ++ " - Extreme Risk"⟩ : Signal) ∈
          earlyWarningSignals
            [(1, 1), (1, 1), (1, 1), (1, 1), (1, 1), (1, 1), (1, 1), (1, 1),
              (1, 1), (1, 1), (1, 1), (1, 1), (8, 1)]
            [("Ukraine", 1.2), ("Chile", 0.95)] ↔ r > 1)) :=
  early_warning_signal_rules
    [(1, 1), (1, 1), (1, 1), (1, 1), (1, 1), (1, 1), (1, 1), (1, 1), (1, 1),
      (1, 1), (1, 1), (1, 1), (8, 1)]
    [("Ukraine", 1.2), ("Chile", 0.95)] (by decide)
